import Mathlib

/-!
# Infinity tunnel: shader and camera driver

A shallow embedding of `src/infinity/main.js`: the fragment shader of the
wireframe material (GLSL, lines 36-88) and the script around it (pointer
handler, tween update, frame loop, displacement toggle).

Numbers are exact rationals. The GLSL builtins the shader calls are written
out from their definitions in the GLSL ES specification; `sin` (whose values
are not rational) is a parameter of every function that reaches it, and the
screen-space derivative `fwidth` is the sum of the absolute differences with
the two neighbouring fragments of the pixel quad. The sum `percentage.value +
0.01` of line 125, whose value decides whether the look-ahead parameter wraps,
is rounded to binary64 the way the script's `+` rounds it.
-/

namespace Infinity

/-! ## Vectors -/

/-- GLSL `vec2`. -/
structure Vec2 where
  x : ℚ
  y : ℚ
  deriving DecidableEq

/-- GLSL `vec3`, also `THREE.Vector3` and `THREE.Color`. -/
structure Vec3 where
  x : ℚ
  y : ℚ
  z : ℚ
  deriving DecidableEq

/-- GLSL `vec4`. -/
structure Vec4 where
  x : ℚ
  y : ℚ
  z : ℚ
  w : ℚ
  deriving DecidableEq

namespace Vec2

/-- Componentwise `v + w`. -/
def add (v w : Vec2) : Vec2 := ⟨v.x + w.x, v.y + w.y⟩

/-- Vector times scalar, `v * s`. -/
def scale (v : Vec2) (s : ℚ) : Vec2 := ⟨v.x * s, v.y * s⟩

/-- Vector plus scalar, `v + s` (the scalar is added to each component). -/
def addScalar (v : Vec2) (s : ℚ) : Vec2 := ⟨v.x + s, v.y + s⟩

/-- Vector minus scalar, `v - s`. -/
def subScalar (v : Vec2) (s : ℚ) : Vec2 := ⟨v.x - s, v.y - s⟩

/-- Componentwise product `v * w`. -/
def mul (v w : Vec2) : Vec2 := ⟨v.x * w.x, v.y * w.y⟩

/-- Scalar minus vector, `s - v`. -/
def rsubScalar (s : ℚ) (v : Vec2) : Vec2 := ⟨s - v.x, s - v.y⟩

end Vec2

/-! ## GLSL builtins -/

namespace GLSL

/-- GLSL `floor` on a float, kept as a number. -/
def floor (x : ℚ) : ℚ := (⌊x⌋ : ℤ)

/-- GLSL `fract(x) = x - floor(x)`. -/
def fract (x : ℚ) : ℚ := x - floor x

/-- GLSL `mix(a, b, t) = a * (1 - t) + b * t`. -/
def mix (a b t : ℚ) : ℚ := a * (1 - t) + b * t

/-- GLSL `clamp(x, lo, hi) = min(max(x, lo), hi)`. -/
def clamp (x lo hi : ℚ) : ℚ := min (max x lo) hi

/-- GLSL `smoothstep(edge0, edge1, x)`: Hermite interpolation of the clamped
ratio. The GLSL specification leaves the result undefined when
`edge0 >= edge1`; that case is `none`. -/
def smoothstep (edge0 edge1 x : ℚ) : Option ℚ :=
  if edge0 < edge1 then
    let t := clamp ((x - edge0) / (edge1 - edge0)) 0 1
    some (t * t * (3 - 2 * t))
  else
    none

/-- GLSL `dot` on `vec2`. -/
def dot (v w : Vec2) : ℚ := v.x * w.x + v.y * w.y

/-- Componentwise `floor` on `vec2`. -/
def floor2 (v : Vec2) : Vec2 := ⟨floor v.x, floor v.y⟩

/-- Componentwise `fract` on `vec2`. -/
def fract2 (v : Vec2) : Vec2 := ⟨fract v.x, fract v.y⟩

/-- Componentwise `abs` on `vec2`. -/
def abs2 (v : Vec2) : Vec2 := ⟨|v.x|, |v.y|⟩

/-- Componentwise `mix` of two `vec3` by one scalar weight. -/
def mix3 (a b : Vec3) (t : ℚ) : Vec3 := ⟨mix a.x b.x t, mix a.y b.y t, mix a.z b.z t⟩

/-- GLSL `fwidth(p) = abs(dFdx(p)) + abs(dFdy(p))`, the derivatives being the
differences between the value `p` of the expression at this fragment and its
values `pdx`, `pdy` at the horizontally and vertically adjacent fragments. -/
def fwidth (p pdx pdy : Vec2) : Vec2 :=
  ⟨|pdx.x - p.x| + |pdy.x - p.x|, |pdx.y - p.y| + |pdy.y - p.y|⟩

end GLSL

/-! ## Shader uniforms (main.js lines 14-24) -/

/-- The uniform set shared by the script and the shader. -/
structure Uniforms where
  uSmoothness : ℚ
  uGridDensity : ℚ
  uNoiseScale : ℚ
  uNoiseSpeed : ℚ
  uNoiseStrength : ℚ
  uEnableDisplacement : Bool
  uTime : ℚ
  uWireColor : Vec3
  uBaseColor : Vec3
  deriving DecidableEq

/-- The object literal `uniforms` of lines 14-24. The two colours are what
`new THREE.Color(0xFFFFFF)` and `new THREE.Color(0x141414)` return. -/
def uniforms (wire base : Vec3) : Uniforms :=
  { uSmoothness := 1
    uGridDensity := 26
    uNoiseScale := 10
    uNoiseSpeed := 1 / 2
    uNoiseStrength := 15 / 100
    uEnableDisplacement := true
    uTime := 0
    uWireColor := wire
    uBaseColor := base }

/-! ## Fragment shader (main.js lines 36-88) -/

/-- What one fragment sees: the interpolated `vUv` of this fragment and of the
two neighbouring fragments that the derivative builtins difference against. -/
structure Fragment where
  vUv : Vec2
  vUvDx : Vec2
  vUvDy : Vec2
  deriving DecidableEq

namespace fragmentShader

open GLSL

/-- Lines 50-52: `fract(sin(dot(st.xy, vec2(12.9898, 78.233))) * 43758.5453123)`. -/
def random (sin : ℚ → ℚ) (st : Vec2) : ℚ :=
  fract (sin (dot st ⟨129898 / 10000, 78233 / 1000⟩) * (437585453123 / 10000000))

/-- Lines 58-65 of `noise`, for a given cell corner `i` and offset `f`. -/
def noiseCell (sin : ℚ → ℚ) (i f : Vec2) : ℚ :=
  let a := random sin i
  let b := random sin (i.add ⟨1, 0⟩)
  let c := random sin (i.add ⟨0, 1⟩)
  let d := random sin (i.add ⟨1, 1⟩)
  let u := (f.mul f).mul (Vec2.rsubScalar 3 (f.scale 2))
  mix a b u.x + (c - a) * u.y * (1 - u.x) + (d - b) * u.x * u.y

/-- Lines 54-66: `noise(st)`, with `i = floor(st)` and `f = fract(st)`. -/
def noise (sin : ℚ → ℚ) (st : Vec2) : ℚ :=
  noiseCell sin (floor2 st) (fract2 st)

/-- Line 70: `grid = abs(fract(vUv * uGridDensity - 0.5) - 0.5)`. -/
def grid (u : Uniforms) (fr : Fragment) : Vec2 :=
  abs2 ((fract2 ((fr.vUv.scale u.uGridDensity).subScalar (1 / 2))).subScalar (1 / 2))

/-- Line 71: `gridWidth = fwidth(vUv * uGridDensity)`. -/
def gridWidth (u : Uniforms) (fr : Fragment) : Vec2 :=
  fwidth (fr.vUv.scale u.uGridDensity) (fr.vUvDx.scale u.uGridDensity)
    (fr.vUvDy.scale u.uGridDensity)

/-- Lines 72-74: the two `smoothstep` calls and `line = 1.0 - min(lineX, lineY)`. -/
def line (u : Uniforms) (fr : Fragment) : Option ℚ :=
  match smoothstep 0 ((gridWidth u fr).x * u.uSmoothness) (grid u fr).x,
        smoothstep 0 ((gridWidth u fr).y * u.uSmoothness) (grid u fr).y with
  | some lineX, some lineY => some (1 - min lineX lineY)
  | _, _ => none

/-- Lines 77-80: `noiseValue`, 0 unless `uEnableDisplacement`. -/
def noiseValue (sin : ℚ → ℚ) (u : Uniforms) (fr : Fragment) : ℚ :=
  if u.uEnableDisplacement then
    noise sin ((fr.vUv.scale u.uNoiseScale).addScalar (u.uTime * u.uNoiseSpeed))
      * u.uNoiseStrength
  else
    0

/-- Lines 68-87: `main`, returning `gl_FragColor`. -/
def main (sin : ℚ → ℚ) (u : Uniforms) (fr : Fragment) : Option Vec4 :=
  match line u fr with
  | some l =>
    let finalColor := mix3 u.uBaseColor u.uWireColor l
    let n := noiseValue sin u fr
    some ⟨finalColor.x + n, finalColor.y + n, finalColor.z + n, 1⟩
  | none => none

end fragmentShader

/-! ## Script (main.js lines 108-159) -/

/-- Line 109: the pointer state `mouse`. -/
structure Mouse where
  x : ℚ
  y : ℚ
  deriving DecidableEq

/-- Line 109: `const mouse = { x: 0, y: 0 }`. -/
def mouse : Mouse := ⟨0, 0⟩

/-- Lines 111-114: the `mousemove` listener, as the new pointer state for an
event at `(clientX, clientY)` in a window of `innerWidth` by `innerHeight`. -/
def onMouseMove (clientX clientY innerWidth innerHeight : ℚ) : Mouse :=
  { x := (clientX / innerWidth) * 2 - 1
    y := -(clientY / innerHeight) * 2 + 1 }

/-- Truncation toward zero, the rounding of the quotient in the `%` operator. -/
def trunc (q : ℚ) : ℤ := if 0 ≤ q then ⌊q⌋ else ⌈q⌉

/-- The `%` operator on numbers: the remainder takes the sign of the dividend. -/
def jsRem (a b : ℚ) : ℚ := a - b * (trunc (a / b) : ℤ)

/-- Rounding to the nearest integer, a tie going to the even neighbour: the
default rounding of IEEE 754 arithmetic. -/
def roundHalfEven (y : ℚ) : ℤ :=
  if y - ⌊y⌋ < 1 / 2 then ⌊y⌋
  else if 1 / 2 < y - ⌊y⌋ then ⌊y⌋ + 1
  else if ⌊y⌋ % 2 = 0 then ⌊y⌋
  else ⌊y⌋ + 1

/-- Spacing of the binary64 numbers around `x`: `2 ^ (e - 52)` with
`e = floor (log2 |x|)`, and `e = -1022` throughout the subnormal range. -/
def ulp (x : ℚ) : ℚ := (2 : ℚ) ^ (max (Int.log 2 |x|) (-1022) - 52)

/-- The binary64 number nearest to `x` (ties to even), for `x` within the finite
range of the format; every number the tween update forms is below 2. -/
def roundDouble (x : ℚ) : ℚ := (roundHalfEven (x / ulp x) : ℤ) * ulp x

/-- A number is a binary64 value when rounding leaves it unchanged. -/
def isDouble (x : ℚ) : Prop := roundDouble x = x

instance (x : ℚ) : Decidable (isDouble x) :=
  inferInstanceAs (Decidable (roundDouble x = x))

/-- The `+` operator on two numbers: the exact sum, rounded to binary64. -/
def jsAdd (a b : ℚ) : ℚ := roundDouble (a + b)

/-- The value of the literal `0.01`: the binary64 number nearest to 1/100. -/
def lit001 : ℚ := roundDouble (1 / 100)

/-- The value of the literal `0.99`, `4458563631096791 / 2 ^ 52`, the binary64
number nearest to 99/100 (it lies just below 99/100). -/
def lit099 : ℚ := 4458563631096791 / 4503599627370496

/-- Line 125: the parameter `(percentage.value + 0.01) % 1` at which `p2` is
sampled. The sum is rounded to binary64; the remainder of a binary64 number by 1
is itself a binary64 number, so `%` rounds nothing. -/
def lookAhead (percentage : ℚ) : ℚ := jsRem (jsAdd percentage lit001) 1

/-- The camera fields the tween update writes: `camera.position` and the
argument of the last `camera.lookAt` call. -/
structure Camera where
  position : Vec3
  lookAt : Vec3
  deriving DecidableEq

/-- Lines 123-133: the tween's `onUpdate`. `getPointAt` is `path.getPointAt`
of the Catmull-Rom curve of lines 93-102. -/
def onUpdate (getPointAt : ℚ → Vec3) (percentage : ℚ) (m : Mouse) (_camera : Camera) :
    Camera :=
  let p1 := getPointAt percentage
  let p2 := getPointAt (lookAhead percentage)
  let shakeX := m.x * (3 / 10)
  let shakeY := m.y * (3 / 10)
  { position := ⟨p1.x + shakeX, p1.y + shakeY, p1.z⟩
    lookAt := p2 }

/-- The script state the toggle and the frame loop write: the uniform set and
the lines written by `console.log` (label and logged value). -/
structure World where
  uniforms : Uniforms
  console : List (String × Bool)
  deriving DecidableEq

/-- Lines 137-141: one call of `render`, which advances `uTime` by 0.01 (the
draw call reads the state and writes none of it). -/
def render (w : World) : World :=
  { w with uniforms := { w.uniforms with uTime := w.uniforms.uTime + 1 / 100 } }

/-- Lines 153-156: `toggleDisplacement(enable)`. -/
def toggleDisplacement (enable : Bool) (w : World) : World :=
  { uniforms := { w.uniforms with uEnableDisplacement := enable }
    console := w.console ++ [("Displacement Enabled:", enable)] }

/-- The top-level statements that write the uniform set, in order: the literal
of lines 14-24, `render()` at line 143, `toggleDisplacement(false)` at line 159. -/
def startup (wire base : Vec3) : World :=
  toggleDisplacement false (render ⟨uniforms wire base, []⟩)

/-! ## Sample inputs -/

/-- A fragment at `vUv` whose horizontal neighbour is `step` further in `u` and
whose vertical neighbour is `step` further in `v`. -/
def quadAt (vUv : Vec2) (step : ℚ) : Fragment :=
  ⟨vUv, ⟨vUv.x + step, vUv.y⟩, ⟨vUv.x, vUv.y + step⟩⟩

/-- A rational stand-in for the `sin` builtin (its cubic Taylor polynomial). -/
def sinTaylor (x : ℚ) : ℚ := x - x * x * x / 6

/-- The shipped uniforms with white wire colour and black base colour. -/
def shipped : Uniforms := uniforms ⟨1, 1, 1⟩ ⟨0, 0, 0⟩

/-- The shipped uniforms with displacement switched off. -/
def shippedOff : Uniforms := { shipped with uEnableDisplacement := false }

/-- The shipped uniforms with the grid density set to 0. -/
def zeroDensity : Uniforms := { shipped with uGridDensity := 0 }

/-- The shipped uniforms with the smoothness set to 0. -/
def zeroSmoothness : Uniforms := { shipped with uSmoothness := 0 }

/-- The shipped uniforms with the smoothness set to 10. -/
def wideSmoothness : Uniforms := { shipped with uSmoothness := 10 }

/-- The fragment at the grid intersection `vUv = (0, 0)`. -/
def cornerFragment : Fragment := quadAt ⟨0, 0⟩ (1 / 1000)

/-- The fragment at `vUv = (0, 0)` whose two derivative neighbours carry the same
`vUv` (a surface patch on which `vUv` does not vary across the pixel quad). -/
def flatFragment : Fragment := quadAt ⟨0, 0⟩ 0

/-- A fragment at the centre of the first grid cell at density 26, one tenth of
a cell away from its neighbours. -/
def centreFragment : Fragment := quadAt ⟨1 / 52, 1 / 52⟩ (1 / 260)

/-- A fragment at the centre of the first grid cell at density 26, one hundredth
of a cell away from its neighbours. -/
def fineCentreFragment : Fragment := quadAt ⟨1 / 52, 1 / 52⟩ (1 / 2600)

/-! ## Reference formulas for the noise claims -/

/-- The interpolation weight `f * f * (3 - 2 f)` of one axis. -/
def smoothWeight (f : ℚ) : ℚ := f * f * (3 - 2 * f)

/-- Bilinear interpolation of four corner values `a` (0,0), `b` (1,0), `c` (0,1),
`d` (1,1) with weights `ux`, `uy`. -/
def bilinear (a b c d ux uy : ℚ) : ℚ :=
  a * (1 - ux) * (1 - uy) + b * ux * (1 - uy) + c * (1 - ux) * uy + d * ux * uy

/-! ## Helper lemmas: builtins -/

namespace GLSL

theorem fract_eq_intFract (x : ℚ) : fract x = Int.fract x := rfl

theorem fract_nonneg (x : ℚ) : 0 ≤ fract x := Int.fract_nonneg x

theorem fract_lt_one (x : ℚ) : fract x < 1 := Int.fract_lt_one x

theorem floor_intCast (n : ℤ) : floor (n : ℚ) = n := by
  simp [floor]

theorem fract_intCast (n : ℤ) : fract (n : ℚ) = 0 := by
  simp [fract, floor]

theorem floor_intCast_add (n : ℤ) (t : ℚ) (h0 : 0 ≤ t) (h1 : t < 1) :
    floor ((n : ℚ) + t) = n := by
  have h : ⌊(n : ℚ) + t⌋ = n := by
    rw [Int.floor_eq_iff]
    constructor <;> linarith
  simp [floor, h]

/-- A value with fractional part `b` has fractional part `c` after subtracting
one half, whenever `c` is in range and `b - 1/2 - c` is an integer. -/
theorem fract_sub_half (x b c : ℚ) (hx : fract x = b) (hc0 : 0 ≤ c) (hc1 : c < 1)
    (k : ℤ) (hk : b - 1 / 2 - c = k) : fract (x - 1 / 2) = c := by
  rw [fract_eq_intFract] at hx ⊢
  rw [Int.fract_eq_iff]
  refine ⟨hc0, hc1, ⌊x⌋ + k, ?_⟩
  have hfl : x - (⌊x⌋ : ℚ) = b := by
    have := Int.self_sub_floor x
    rw [this]; exact hx
  push_cast
  linarith

theorem fract_sub_half_of_boundary (x : ℚ) (hx : fract x = 0) : fract (x - 1 / 2) = 1 / 2 :=
  fract_sub_half x 0 (1 / 2) hx (by norm_num) (by norm_num) (-1) (by norm_num)

theorem fract_sub_half_of_centre (x : ℚ) (hx : fract x = 1 / 2) : fract (x - 1 / 2) = 0 :=
  fract_sub_half x (1 / 2) 0 hx (by norm_num) (by norm_num) 0 (by norm_num)

theorem clamp_nonneg (x : ℚ) : 0 ≤ clamp x 0 1 := by
  unfold clamp
  exact le_min (le_max_right x 0) zero_le_one

theorem clamp_le_one (x : ℚ) : clamp x 0 1 ≤ 1 := by
  unfold clamp
  exact min_le_right _ _

theorem smoothstep_of_lt (e1 x : ℚ) (h : 0 < e1) :
    smoothstep 0 e1 x = some (clamp (x / e1) 0 1 * clamp (x / e1) 0 1 * (3 - 2 * clamp (x / e1) 0 1)) := by
  simp [smoothstep, h]

theorem smoothstep_of_not_lt (e1 x : ℚ) (h : ¬ 0 < e1) : smoothstep 0 e1 x = none := by
  simp [smoothstep, h]

/-- The Hermite polynomial of a clamped ratio is never negative. -/
theorem hermite_clamp_nonneg (x : ℚ) :
    0 ≤ clamp x 0 1 * clamp x 0 1 * (3 - 2 * clamp x 0 1) := by
  have h0 := clamp_nonneg x
  have h1 := clamp_le_one x
  have : 0 ≤ 3 - 2 * clamp x 0 1 := by linarith
  positivity

theorem clamp_zero : clamp 0 0 1 = 0 := by
  simp [clamp]

theorem clamp_of_one_le (x : ℚ) (h : 1 ≤ x) : clamp x 0 1 = 1 := by
  unfold clamp
  have : max x 0 = x := max_eq_left (by linarith)
  rw [this]
  exact min_eq_right h

end GLSL

/-! ## Helper lemmas: grid lines -/

namespace fragmentShader

open GLSL

theorem grid_x_of_boundary (u : Uniforms) (fr : Fragment)
    (h : fract (fr.vUv.x * u.uGridDensity) = 0) : (grid u fr).x = 0 := by
  have h2 : fract (fr.vUv.x * u.uGridDensity - 1 / 2) = 1 / 2 := fract_sub_half_of_boundary _ h
  simp only [grid, abs2, fract2, Vec2.subScalar, Vec2.scale, h2]
  norm_num

theorem grid_y_of_boundary (u : Uniforms) (fr : Fragment)
    (h : fract (fr.vUv.y * u.uGridDensity) = 0) : (grid u fr).y = 0 := by
  have h2 : fract (fr.vUv.y * u.uGridDensity - 1 / 2) = 1 / 2 := fract_sub_half_of_boundary _ h
  simp only [grid, abs2, fract2, Vec2.subScalar, Vec2.scale, h2]
  norm_num

theorem grid_x_of_centre (u : Uniforms) (fr : Fragment)
    (h : fract (fr.vUv.x * u.uGridDensity) = 1 / 2) : (grid u fr).x = 1 / 2 := by
  have h2 : fract (fr.vUv.x * u.uGridDensity - 1 / 2) = 0 := fract_sub_half_of_centre _ h
  simp only [grid, abs2, fract2, Vec2.subScalar, Vec2.scale, h2]
  norm_num [abs_of_nonneg]

theorem grid_y_of_centre (u : Uniforms) (fr : Fragment)
    (h : fract (fr.vUv.y * u.uGridDensity) = 1 / 2) : (grid u fr).y = 1 / 2 := by
  have h2 : fract (fr.vUv.y * u.uGridDensity - 1 / 2) = 0 := fract_sub_half_of_centre _ h
  simp only [grid, abs2, fract2, Vec2.subScalar, Vec2.scale, h2]
  norm_num [abs_of_nonneg]

/-- The Hermite value both `smoothstep` calls compute when they are defined. -/
theorem line_of_edges_pos (u : Uniforms) (fr : Fragment)
    (hx : 0 < (gridWidth u fr).x * u.uSmoothness)
    (hy : 0 < (gridWidth u fr).y * u.uSmoothness) :
    ∃ lx ly : ℚ, 0 ≤ lx ∧ 0 ≤ ly
      ∧ smoothstep 0 ((gridWidth u fr).x * u.uSmoothness) (grid u fr).x = some lx
      ∧ smoothstep 0 ((gridWidth u fr).y * u.uSmoothness) (grid u fr).y = some ly
      ∧ line u fr = some (1 - min lx ly) := by
  refine ⟨_, _, hermite_clamp_nonneg _, hermite_clamp_nonneg _,
    smoothstep_of_lt _ _ hx, smoothstep_of_lt _ _ hy, ?_⟩
  unfold line
  rw [smoothstep_of_lt _ _ hx, smoothstep_of_lt _ _ hy]

theorem line_none_of_x (u : Uniforms) (fr : Fragment)
    (hx : ¬ 0 < (gridWidth u fr).x * u.uSmoothness) : line u fr = none := by
  unfold line
  rw [smoothstep_of_not_lt _ _ hx]

theorem main_isSome_of_line (sin : ℚ → ℚ) (u : Uniforms) (fr : Fragment)
    (h : (line u fr).isSome) : (main sin u fr).isSome := by
  unfold main
  cases hl : line u fr with
  | none => simp [hl] at h
  | some l => simp

theorem gridWidth_quadAt (u : Uniforms) (v : Vec2) (s : ℚ) :
    gridWidth u (quadAt v s) = ⟨|s * u.uGridDensity|, |s * u.uGridDensity|⟩ := by
  simp only [gridWidth, fwidth, quadAt, Vec2.scale, Vec2.mk.injEq]
  constructor
  · have h1 : (v.x + s) * u.uGridDensity - v.x * u.uGridDensity = s * u.uGridDensity := by ring
    rw [h1]; simp
  · have h1 : (v.y + s) * u.uGridDensity - v.y * u.uGridDensity = s * u.uGridDensity := by ring
    rw [h1]; simp

theorem fract_zero : fract 0 = 0 := by
  simpa using fract_intCast 0

theorem fract_one_half : fract (1 / 2) = 1 / 2 := by
  rw [fract_eq_intFract, Int.fract_eq_iff]
  exact ⟨by norm_num, by norm_num, 0, by norm_num⟩

end fragmentShader

/-! ## Fragment shader: displacement flag and grid lines -/

namespace fragmentShader

open GLSL

/-- C1: when `uEnableDisplacement` is false the noise term of `main` is exactly
0 whatever `vUv`, `uTime`, `uNoiseScale`, `uNoiseSpeed` and `uNoiseStrength`
are, the output is `mix(uBaseColor, uWireColor, line)` with alpha 1, and it is
the same for any two values of `uTime` with the fragment, its derivative
neighbours and the other uniforms unchanged. -/
theorem main_displacement_off (sin : ℚ → ℚ) (u : Uniforms) (fr : Fragment)
    (hoff : u.uEnableDisplacement = false) :
    noiseValue sin u fr = 0
      ∧ main sin u fr = (line u fr).map (fun l =>
          (⟨(mix3 u.uBaseColor u.uWireColor l).x, (mix3 u.uBaseColor u.uWireColor l).y,
            (mix3 u.uBaseColor u.uWireColor l).z, 1⟩ : Vec4))
      ∧ ∀ t t' : ℚ, main sin { u with uTime := t } fr = main sin { u with uTime := t' } fr := by
  have hn : ∀ v : Uniforms, v.uEnableDisplacement = false → noiseValue sin v fr = 0 := by
    intro v hv
    simp [noiseValue, hv]
  have hm : ∀ v : Uniforms, v.uEnableDisplacement = false →
      main sin v fr = (line v fr).map (fun l =>
          (⟨(mix3 v.uBaseColor v.uWireColor l).x, (mix3 v.uBaseColor v.uWireColor l).y,
            (mix3 v.uBaseColor v.uWireColor l).z, 1⟩ : Vec4)) := by
    intro v hv
    unfold main
    cases line v fr with
    | none => rfl
    | some l => simp [hn v hv]
  refine ⟨hn u hoff, hm u hoff, ?_⟩
  intro t t'
  rw [hm { u with uTime := t } hoff, hm { u with uTime := t' } hoff]
  rfl

/-- Witness of C1: the shipped uniforms with displacement off, rendered at
`uTime = 0` and at `uTime = 5`. -/
theorem main_displacement_off_witness :
    shippedOff.uEnableDisplacement = false
      ∧ main sinTaylor { shippedOff with uTime := 0 } cornerFragment
        = main sinTaylor { shippedOff with uTime := 5 } cornerFragment :=
  ⟨rfl, (main_displacement_off sinTaylor shippedOff cornerFragment rfl).2.2 0 5⟩

/-- C2, as stated, fails: at `uGridDensity = 0` every `vUv * uGridDensity` has
fractional part 0 and `uSmoothness = 1 > 0`, yet the derivative width is 0, both
`smoothstep` calls have `edge1 = 0` and the line intensity is undefined, not 1. -/
theorem line_boundary_zero_density :
    0 < zeroDensity.uSmoothness
      ∧ fract (cornerFragment.vUv.x * zeroDensity.uGridDensity) = 0
      ∧ fract (cornerFragment.vUv.y * zeroDensity.uGridDensity) = 0
      ∧ gridWidth zeroDensity cornerFragment = ⟨0, 0⟩
      ∧ line zeroDensity cornerFragment = none
      ∧ line zeroDensity cornerFragment ≠ some 1 := by
  have hw : gridWidth zeroDensity cornerFragment = ⟨0, 0⟩ := by
    rw [cornerFragment, gridWidth_quadAt]
    simp [zeroDensity]
  have hl : line zeroDensity cornerFragment = none := by
    apply line_none_of_x
    rw [hw]
    norm_num
  refine ⟨by norm_num [zeroDensity, shipped, uniforms], ?_, ?_, hw, hl, ?_⟩
  · simp [zeroDensity, fract_zero]
  · simp [zeroDensity, fract_zero]
  · rw [hl]; simp

/-- C2, amended: on a grid boundary (fractional part 0 of `vUv * uGridDensity`
on at least one axis), for every `uSmoothness > 0` and every derivative width
that is positive on both axes, the line intensity is exactly 1. -/
theorem line_boundary (u : Uniforms) (fr : Fragment)
    (hs : 0 < u.uSmoothness)
    (hwx : 0 < (gridWidth u fr).x) (hwy : 0 < (gridWidth u fr).y)
    (hb : fract (fr.vUv.x * u.uGridDensity) = 0 ∨ fract (fr.vUv.y * u.uGridDensity) = 0) :
    line u fr = some 1 := by
  obtain ⟨lx, ly, hlx, hly, ex, ey, hl⟩ :=
    line_of_edges_pos u fr (mul_pos hwx hs) (mul_pos hwy hs)
  rw [hl]
  have hmin : min lx ly = 0 := by
    rcases hb with hb | hb
    · rw [grid_x_of_boundary u fr hb, smoothstep_of_lt _ _ (mul_pos hwx hs)] at ex
      have : lx = 0 := by
        have := Option.some.inj ex
        rw [← this]; simp [clamp_zero]
      rw [this]; exact min_eq_left hly
    · rw [grid_y_of_boundary u fr hb, smoothstep_of_lt _ _ (mul_pos hwy hs)] at ey
      have : ly = 0 := by
        have := Option.some.inj ey
        rw [← this]; simp [clamp_zero]
      rw [this]; exact min_eq_right hlx
  rw [hmin]; norm_num

/-- Witness of C2: `uGridDensity = 26`, `uSmoothness = 1`, `vUv = (0, 0)`. -/
theorem line_boundary_witness :
    shipped.uGridDensity = 26 ∧ shipped.uSmoothness = 1 ∧ cornerFragment.vUv = ⟨0, 0⟩
      ∧ line shipped cornerFragment = some 1 :=
  ⟨rfl, rfl, rfl, line_boundary shipped cornerFragment
    (by norm_num [shipped, uniforms])
    (by rw [cornerFragment, gridWidth_quadAt]; norm_num [shipped, uniforms])
    (by rw [cornerFragment, gridWidth_quadAt]; norm_num [shipped, uniforms])
    (Or.inl (by simp [cornerFragment, quadAt, fract_zero]))⟩

end fragmentShader

namespace fragmentShader

open GLSL

/-- C3, as stated, fails: at the centre of a grid cell with `uSmoothness = 10`
and a derivative width of a tenth of a cell, each `smoothstep` call has
`edge1 = 1`, returns 1/2 at `grid = 1/2`, and the line intensity is 1/2, not 0. -/
theorem line_centre_wide_smoothness :
    0 < wideSmoothness.uSmoothness
      ∧ fract (centreFragment.vUv.x * wideSmoothness.uGridDensity) = 1 / 2
      ∧ fract (centreFragment.vUv.y * wideSmoothness.uGridDensity) = 1 / 2
      ∧ line wideSmoothness centreFragment = some (1 / 2)
      ∧ line wideSmoothness centreFragment ≠ some 0 := by
  have hx : fract (centreFragment.vUv.x * wideSmoothness.uGridDensity) = 1 / 2 := by
    have : centreFragment.vUv.x * wideSmoothness.uGridDensity = 1 / 2 := by
      norm_num [centreFragment, quadAt, wideSmoothness, shipped, uniforms]
    rw [this, fract_one_half]
  have hy : fract (centreFragment.vUv.y * wideSmoothness.uGridDensity) = 1 / 2 := by
    have : centreFragment.vUv.y * wideSmoothness.uGridDensity = 1 / 2 := by
      norm_num [centreFragment, quadAt, wideSmoothness, shipped, uniforms]
    rw [this, fract_one_half]
  have hw : gridWidth wideSmoothness centreFragment = ⟨1 / 10, 1 / 10⟩ := by
    rw [centreFragment, gridWidth_quadAt]
    norm_num [wideSmoothness, shipped, uniforms, abs_of_nonneg]
  have hl : line wideSmoothness centreFragment = some (1 / 2) := by
    unfold line
    rw [grid_x_of_centre _ _ hx, grid_y_of_centre _ _ hy, hw]
    norm_num [smoothstep, clamp, wideSmoothness, shipped, uniforms]
  refine ⟨by norm_num [wideSmoothness, shipped, uniforms], hx, hy, hl, ?_⟩
  rw [hl]; norm_num

/-- C3, amended: at the exact centre of a grid cell (fractional part 1/2 of
`vUv * uGridDensity` on both axes), for every `uSmoothness > 0` and every
positive derivative width with `gridWidth * uSmoothness <= 1/2` on both axes,
the line intensity is exactly 0. -/
theorem line_centre (u : Uniforms) (fr : Fragment)
    (hs : 0 < u.uSmoothness)
    (hwx : 0 < (gridWidth u fr).x) (hwy : 0 < (gridWidth u fr).y)
    (hex : (gridWidth u fr).x * u.uSmoothness ≤ 1 / 2)
    (hey : (gridWidth u fr).y * u.uSmoothness ≤ 1 / 2)
    (hcx : fract (fr.vUv.x * u.uGridDensity) = 1 / 2)
    (hcy : fract (fr.vUv.y * u.uGridDensity) = 1 / 2) :
    line u fr = some 0 := by
  have hpx := mul_pos hwx hs
  have hpy := mul_pos hwy hs
  have hcl : ∀ e : ℚ, 0 < e → e ≤ 1 / 2 → clamp (1 / 2 / e) 0 1 = 1 := by
    intro e he hle
    apply clamp_of_one_le
    rw [le_div_iff₀ he]
    linarith
  unfold line
  rw [grid_x_of_centre u fr hcx, grid_y_of_centre u fr hcy,
    smoothstep_of_lt _ _ hpx, smoothstep_of_lt _ _ hpy, hcl _ hpx hex, hcl _ hpy hey]
  norm_num

/-- Witness of C3 (amended): the shipped uniforms at the centre of the first
grid cell, with a derivative width of a hundredth of a cell. -/
theorem line_centre_witness : line shipped fineCentreFragment = some 0 := by
  have hw : gridWidth shipped fineCentreFragment = ⟨1 / 100, 1 / 100⟩ := by
    rw [fineCentreFragment, gridWidth_quadAt]
    norm_num [shipped, uniforms, abs_of_nonneg]
  have hc : (1 / 52 : ℚ) * 26 = 1 / 2 := by norm_num
  exact line_centre shipped fineCentreFragment
    (by norm_num [shipped, uniforms])
    (by rw [hw]; norm_num) (by rw [hw]; norm_num)
    (by rw [hw]; norm_num [shipped, uniforms]) (by rw [hw]; norm_num [shipped, uniforms])
    (by
      show fract ((1 / 52 : ℚ) * 26) = 1 / 2
      rw [hc, fract_one_half])
    (by
      show fract ((1 / 52 : ℚ) * 26) = 1 / 2
      rw [hc, fract_one_half])

theorem gridWidth_x_pos (u : Uniforms) (fr : Fragment) (hd : u.uGridDensity ≠ 0)
    (hx : fr.vUvDx.x ≠ fr.vUv.x ∨ fr.vUvDy.x ≠ fr.vUv.x) : 0 < (gridWidth u fr).x := by
  simp only [gridWidth, fwidth, Vec2.scale]
  rcases hx with h | h
  · have : fr.vUvDx.x * u.uGridDensity - fr.vUv.x * u.uGridDensity ≠ 0 := by
      rw [← sub_mul]
      exact mul_ne_zero (sub_ne_zero.mpr h) hd
    have h1 := abs_pos.mpr this
    have h2 := abs_nonneg (fr.vUvDy.x * u.uGridDensity - fr.vUv.x * u.uGridDensity)
    linarith
  · have : fr.vUvDy.x * u.uGridDensity - fr.vUv.x * u.uGridDensity ≠ 0 := by
      rw [← sub_mul]
      exact mul_ne_zero (sub_ne_zero.mpr h) hd
    have h1 := abs_pos.mpr this
    have h2 := abs_nonneg (fr.vUvDx.x * u.uGridDensity - fr.vUv.x * u.uGridDensity)
    linarith

theorem gridWidth_y_pos (u : Uniforms) (fr : Fragment) (hd : u.uGridDensity ≠ 0)
    (hy : fr.vUvDx.y ≠ fr.vUv.y ∨ fr.vUvDy.y ≠ fr.vUv.y) : 0 < (gridWidth u fr).y := by
  simp only [gridWidth, fwidth, Vec2.scale]
  rcases hy with h | h
  · have : fr.vUvDx.y * u.uGridDensity - fr.vUv.y * u.uGridDensity ≠ 0 := by
      rw [← sub_mul]
      exact mul_ne_zero (sub_ne_zero.mpr h) hd
    have h1 := abs_pos.mpr this
    have h2 := abs_nonneg (fr.vUvDy.y * u.uGridDensity - fr.vUv.y * u.uGridDensity)
    linarith
  · have : fr.vUvDy.y * u.uGridDensity - fr.vUv.y * u.uGridDensity ≠ 0 := by
      rw [← sub_mul]
      exact mul_ne_zero (sub_ne_zero.mpr h) hd
    have h1 := abs_pos.mpr this
    have h2 := abs_nonneg (fr.vUvDx.y * u.uGridDensity - fr.vUv.y * u.uGridDensity)
    linarith

theorem line_none_of_y (u : Uniforms) (fr : Fragment)
    (hy : ¬ 0 < (gridWidth u fr).y * u.uSmoothness) : line u fr = none := by
  unfold line
  rw [smoothstep_of_not_lt _ _ hy]
  cases smoothstep 0 ((gridWidth u fr).x * u.uSmoothness) (grid u fr).x <;> rfl

theorem main_none_of_line (sin : ℚ → ℚ) (u : Uniforms) (fr : Fragment)
    (h : line u fr = none) : main sin u fr = none := by
  unfold main
  rw [h]

theorem gridWidth_nonneg (u : Uniforms) (fr : Fragment) :
    0 ≤ (gridWidth u fr).x ∧ 0 ≤ (gridWidth u fr).y := by
  simp only [gridWidth, fwidth]
  constructor <;> positivity

/-- The per-pixel evaluation is defined exactly when `uSmoothness` is positive,
`uGridDensity` is not 0 and `vUv` varies across the pixel quad on each axis. -/
theorem main_isSome_iff (sin : ℚ → ℚ) (u : Uniforms) (fr : Fragment) :
    (main sin u fr).isSome ↔
      0 < u.uSmoothness ∧ u.uGridDensity ≠ 0
        ∧ (fr.vUvDx.x ≠ fr.vUv.x ∨ fr.vUvDy.x ≠ fr.vUv.x)
        ∧ (fr.vUvDx.y ≠ fr.vUv.y ∨ fr.vUvDy.y ≠ fr.vUv.y) := by
  constructor
  · intro h
    have hl : line u fr ≠ none := by
      intro hn
      rw [main_none_of_line sin u fr hn] at h
      simp at h
    have hex : 0 < (gridWidth u fr).x * u.uSmoothness := by
      by_contra hc
      exact hl (line_none_of_x u fr hc)
    have hey : 0 < (gridWidth u fr).y * u.uSmoothness := by
      by_contra hc
      exact hl (line_none_of_y u fr hc)
    obtain ⟨gx, gy⟩ := gridWidth_nonneg u fr
    have hs : 0 < u.uSmoothness := by
      by_contra hc
      have : (gridWidth u fr).x * u.uSmoothness ≤ 0 :=
        mul_nonpos_of_nonneg_of_nonpos gx (not_lt.mp hc)
      linarith
    have hwx : (gridWidth u fr).x ≠ 0 := by
      intro h0
      rw [h0, zero_mul] at hex
      exact lt_irrefl _ hex
    have hwy : (gridWidth u fr).y ≠ 0 := by
      intro h0
      rw [h0, zero_mul] at hey
      exact lt_irrefl _ hey
    refine ⟨hs, ?_, ?_, ?_⟩
    · intro hd
      apply hwx
      simp [gridWidth, fwidth, Vec2.scale, hd]
    · by_contra hc
      push_neg at hc
      apply hwx
      simp [gridWidth, fwidth, Vec2.scale, hc.1, hc.2]
    · by_contra hc
      push_neg at hc
      apply hwy
      simp [gridWidth, fwidth, Vec2.scale, hc.1, hc.2]
  · rintro ⟨hs, hd, hx, hy⟩
    have hpx := mul_pos (gridWidth_x_pos u fr hd hx) hs
    have hpy := mul_pos (gridWidth_y_pos u fr hd hy) hs
    obtain ⟨lx, ly, _, _, _, _, hl⟩ := line_of_edges_pos u fr hpx hpy
    apply main_isSome_of_line
    rw [hl]; rfl

/-- C6, as stated, fails: with `uSmoothness = 0` (every other uniform as
shipped) both `smoothstep` calls have `edge1 = gridWidth * 0 = 0`, which is not
greater than `edge0 = 0`, and the per-pixel evaluation is undefined. The same
happens with `uGridDensity = 0`, and with the shipped uniforms at a fragment
whose two derivative neighbours carry the same `vUv`. -/
theorem smoothstep_domain_zero_smoothness :
    ¬ (0 < (gridWidth zeroSmoothness cornerFragment).x * zeroSmoothness.uSmoothness)
      ∧ ¬ (0 < (gridWidth zeroSmoothness cornerFragment).y * zeroSmoothness.uSmoothness)
      ∧ line zeroSmoothness cornerFragment = none
      ∧ main sinTaylor zeroSmoothness cornerFragment = none
      ∧ main sinTaylor zeroDensity cornerFragment = none
      ∧ main sinTaylor shipped flatFragment = none := by
  have hx : ¬ (0 < (gridWidth zeroSmoothness cornerFragment).x * zeroSmoothness.uSmoothness) := by
    norm_num [zeroSmoothness]
  have hy : ¬ (0 < (gridWidth zeroSmoothness cornerFragment).y * zeroSmoothness.uSmoothness) := by
    norm_num [zeroSmoothness]
  have hl := line_none_of_x zeroSmoothness cornerFragment hx
  have hl2 : line zeroDensity cornerFragment = none := by
    apply line_none_of_x
    rw [cornerFragment, gridWidth_quadAt]
    norm_num [zeroDensity]
  have hl3 : line shipped flatFragment = none := by
    apply line_none_of_x
    rw [flatFragment, gridWidth_quadAt]
    norm_num
  refine ⟨hx, hy, hl, ?_, ?_, ?_⟩
  · unfold main
    rw [hl]
  · unfold main
    rw [hl2]
  · unfold main
    rw [hl3]

/-- C6, amended: for every `uSmoothness > 0`, every `uGridDensity` other than 0
and every fragment whose `vUv` differs, on each axis, from the `vUv` of at least
one of the two neighbouring fragments that `fwidth` differences against (noise
strength, the other uniforms and `vUv` itself unconstrained), both `smoothstep`
calls of `main` are made with `edge0 = 0 < edge1 = gridWidth * uSmoothness`, and
the per-pixel evaluation is defined. -/
theorem smoothstep_domain (sin : ℚ → ℚ) (u : Uniforms) (fr : Fragment)
    (hs : 0 < u.uSmoothness) (hd : u.uGridDensity ≠ 0)
    (hx : fr.vUvDx.x ≠ fr.vUv.x ∨ fr.vUvDy.x ≠ fr.vUv.x)
    (hy : fr.vUvDx.y ≠ fr.vUv.y ∨ fr.vUvDy.y ≠ fr.vUv.y) :
    0 < (gridWidth u fr).x * u.uSmoothness
      ∧ 0 < (gridWidth u fr).y * u.uSmoothness
      ∧ (smoothstep 0 ((gridWidth u fr).x * u.uSmoothness) (grid u fr).x).isSome
      ∧ (smoothstep 0 ((gridWidth u fr).y * u.uSmoothness) (grid u fr).y).isSome
      ∧ (main sin u fr).isSome := by
  have hpx := mul_pos (gridWidth_x_pos u fr hd hx) hs
  have hpy := mul_pos (gridWidth_y_pos u fr hd hy) hs
  obtain ⟨lx, ly, _, _, ex, ey, hl⟩ := line_of_edges_pos u fr hpx hpy
  refine ⟨hpx, hpy, ?_, ?_, ?_⟩
  · rw [ex]; rfl
  · rw [ey]; rfl
  · apply main_isSome_of_line
    rw [hl]; rfl

/-- Witness of C6 (amended): the shipped uniforms at the grid intersection. -/
theorem smoothstep_domain_witness : (main sinTaylor shipped cornerFragment).isSome :=
  (smoothstep_domain sinTaylor shipped cornerFragment
    (by norm_num [shipped, uniforms])
    (by norm_num [shipped, uniforms])
    (Or.inl (by norm_num [cornerFragment, quadAt]))
    (Or.inr (by norm_num [cornerFragment, quadAt]))).2.2.2.2

end fragmentShader

/-! ## Helper lemmas: noise -/

namespace fragmentShader

open GLSL

theorem random_nonneg (sin : ℚ → ℚ) (st : Vec2) : 0 ≤ random sin st := fract_nonneg _

theorem random_lt_one (sin : ℚ → ℚ) (st : Vec2) : random sin st < 1 := fract_lt_one _

theorem smoothWeight_nonneg (f : ℚ) (h0 : 0 ≤ f) (h1 : f ≤ 1) : 0 ≤ smoothWeight f := by
  unfold smoothWeight
  have : 0 ≤ 3 - 2 * f := by linarith
  positivity

theorem one_sub_smoothWeight (f : ℚ) : 1 - smoothWeight f = (1 - f) * (1 - f) * (1 + 2 * f) := by
  unfold smoothWeight
  ring

theorem smoothWeight_le_one (f : ℚ) (h0 : 0 ≤ f) (h1 : f ≤ 1) : smoothWeight f ≤ 1 := by
  have h := one_sub_smoothWeight f
  have h2 : 0 ≤ (1 - f) * (1 - f) * (1 + 2 * f) := by
    have : 0 ≤ 1 - f := by linarith
    positivity
  linarith

theorem one_sub_smoothWeight_le (f : ℚ) (h0 : 0 ≤ f) (h1 : f ≤ 1) :
    1 - smoothWeight f ≤ 3 * (1 - f) := by
  rw [one_sub_smoothWeight]
  have hf : 0 ≤ 1 - f := by linarith
  have h3 : (1 - f) * (1 + 2 * f) ≤ 3 := by nlinarith
  calc (1 - f) * (1 - f) * (1 + 2 * f) = (1 - f) * ((1 - f) * (1 + 2 * f)) := by ring
    _ ≤ (1 - f) * 3 := mul_le_mul_of_nonneg_left h3 hf
    _ = 3 * (1 - f) := by ring

theorem noiseCell_eq_bilinear (sin : ℚ → ℚ) (i f : Vec2) :
    noiseCell sin i f = bilinear (random sin i) (random sin (i.add ⟨1, 0⟩))
      (random sin (i.add ⟨0, 1⟩)) (random sin (i.add ⟨1, 1⟩))
      (smoothWeight f.x) (smoothWeight f.y) := by
  simp only [noiseCell, bilinear, smoothWeight, mix, Vec2.mul, Vec2.rsubScalar, Vec2.scale]
  ring

theorem bilinear_nonneg (a b c d ux uy : ℚ) (ha : 0 ≤ a) (hb : 0 ≤ b) (hc : 0 ≤ c)
    (hd : 0 ≤ d) (hx0 : 0 ≤ ux) (hx1 : ux ≤ 1) (hy0 : 0 ≤ uy) (hy1 : uy ≤ 1) :
    0 ≤ bilinear a b c d ux uy := by
  unfold bilinear
  have h1 : 0 ≤ 1 - ux := by linarith
  have h2 : 0 ≤ 1 - uy := by linarith
  positivity

theorem bilinear_le_one (a b c d ux uy : ℚ) (ha : a ≤ 1) (hb : b ≤ 1) (hc : c ≤ 1)
    (hd : d ≤ 1) (hx0 : 0 ≤ ux) (hx1 : ux ≤ 1) (hy0 : 0 ≤ uy) (hy1 : uy ≤ 1) :
    bilinear a b c d ux uy ≤ 1 := by
  unfold bilinear
  have h1 : 0 ≤ 1 - ux := by linarith
  have h2 : 0 ≤ 1 - uy := by linarith
  have ta : a * ((1 - ux) * (1 - uy)) ≤ 1 * ((1 - ux) * (1 - uy)) :=
    mul_le_mul_of_nonneg_right ha (mul_nonneg h1 h2)
  have tb : b * (ux * (1 - uy)) ≤ 1 * (ux * (1 - uy)) :=
    mul_le_mul_of_nonneg_right hb (mul_nonneg hx0 h2)
  have tc : c * ((1 - ux) * uy) ≤ 1 * ((1 - ux) * uy) :=
    mul_le_mul_of_nonneg_right hc (mul_nonneg h1 hy0)
  have td : d * (ux * uy) ≤ 1 * (ux * uy) :=
    mul_le_mul_of_nonneg_right hd (mul_nonneg hx0 hy0)
  nlinarith

/-- Inside the cell with integer corner `(i, j)` the floor and fractional part
of the sample point are the corner and the offset. -/
theorem noise_in_cell (sin : ℚ → ℚ) (i j : ℤ) (s t : ℚ)
    (hs0 : 0 ≤ s) (hs1 : s < 1) (ht0 : 0 ≤ t) (ht1 : t < 1) :
    noise sin ⟨i + s, j + t⟩ = noiseCell sin ⟨i, j⟩ ⟨s, t⟩ := by
  have hi := floor_intCast_add i s hs0 hs1
  have hj := floor_intCast_add j t ht0 ht1
  simp only [noise, floor2, fract2, fract, hi, hj]
  congr 2 <;> ring

/-- How far the cell formula at offset `(ux, uy)` is from its value on the edge
`ux = 1`, in terms of the weights. -/
theorem bilinear_sub_edge (a b c d ux uy : ℚ) :
    bilinear a b c d ux uy - bilinear a b c d 1 uy
      = (1 - ux) * ((a - b) * (1 - uy) + (c - d) * uy) := by
  unfold bilinear
  ring

theorem bilinear_sub_edge_abs (a b c d ux uy : ℚ)
    (ha0 : 0 ≤ a) (ha1 : a ≤ 1) (hb0 : 0 ≤ b) (hb1 : b ≤ 1)
    (hc0 : 0 ≤ c) (hc1 : c ≤ 1) (hd0 : 0 ≤ d) (hd1 : d ≤ 1)
    (hx1 : ux ≤ 1) (hy0 : 0 ≤ uy) (hy1 : uy ≤ 1) :
    |(1 - ux) * ((a - b) * (1 - uy) + (c - d) * uy)| ≤ 1 - ux := by
  have h1 : 0 ≤ 1 - ux := by linarith
  have h2 : 0 ≤ 1 - uy := by linarith
  have hK : |(a - b) * (1 - uy) + (c - d) * uy| ≤ 1 := by
    rw [abs_le]
    constructor <;> nlinarith
  rw [abs_mul, abs_of_nonneg h1]
  calc (1 - ux) * |(a - b) * (1 - uy) + (c - d) * uy| ≤ (1 - ux) * 1 :=
        mul_le_mul_of_nonneg_left hK h1
    _ = 1 - ux := by ring

end fragmentShader

namespace fragmentShader

open GLSL

theorem noiseCell_edge_x (sin : ℚ → ℚ) (x y t : ℚ) :
    noiseCell sin ⟨x, y⟩ ⟨1, t⟩ = noiseCell sin ⟨x + 1, y⟩ ⟨0, t⟩ := by
  rw [noiseCell_eq_bilinear, noiseCell_eq_bilinear]
  simp only [Vec2.add, smoothWeight, bilinear, add_zero]
  ring

theorem noiseCell_edge_y (sin : ℚ → ℚ) (x y s : ℚ) :
    noiseCell sin ⟨x, y⟩ ⟨s, 1⟩ = noiseCell sin ⟨x, y + 1⟩ ⟨s, 0⟩ := by
  rw [noiseCell_eq_bilinear, noiseCell_eq_bilinear]
  simp only [Vec2.add, smoothWeight, bilinear, add_zero]
  ring

/-- On the closed cell with integer corner `(i, j)`, edges included, `noise` is
the cell formula of that cell. -/
theorem noise_on_closed_cell (sin : ℚ → ℚ) (i j : ℤ) (s t : ℚ)
    (hs0 : 0 ≤ s) (hs1 : s ≤ 1) (ht0 : 0 ≤ t) (ht1 : t ≤ 1) :
    noise sin ⟨i + s, j + t⟩ = noiseCell sin ⟨i, j⟩ ⟨s, t⟩ := by
  have hi : ((i + 1 : ℤ) : ℚ) = (i : ℚ) + 1 := by push_cast; ring
  have hj : ((j + 1 : ℤ) : ℚ) = (j : ℚ) + 1 := by push_cast; ring
  rcases lt_or_eq_of_le hs1 with hs | hs <;> rcases lt_or_eq_of_le ht1 with ht | ht
  · exact noise_in_cell sin i j s t hs0 hs ht0 ht
  · subst ht
    have h := noise_in_cell sin i (j + 1) s 0 hs0 hs le_rfl zero_lt_one
    rw [hj, add_zero] at h
    rw [h, noiseCell_edge_y]
  · subst hs
    have h := noise_in_cell sin (i + 1) j 0 t le_rfl zero_lt_one ht0 ht
    rw [hi, add_zero] at h
    rw [h, noiseCell_edge_x]
  · subst hs; subst ht
    have h := noise_in_cell sin (i + 1) (j + 1) 0 0 le_rfl zero_lt_one le_rfl zero_lt_one
    rw [hi, hj, add_zero, add_zero] at h
    rw [h, noiseCell_edge_x, noiseCell_edge_y]

theorem bilinear_swap (a b c d ux uy : ℚ) :
    bilinear a b c d ux uy = bilinear a c b d uy ux := by
  unfold bilinear
  ring

/-! ## Fragment shader: value noise -/

/-- C4: for every 2D input `st`, `noise(st)` is the bilinear interpolation of
the four corner hashes `random(i)`, `random(i+(1,0))`, `random(i+(0,1))`,
`random(i+(1,1))`, `i = floor(st)`, with weights `u = f*f*(3-2f)`,
`f = fract(st)`; every hash is in [0,1), both weights are in [0,1], and the
result lies in [0,1]. -/
theorem noise_bilinear_range (sin : ℚ → ℚ) (st : Vec2) :
    noise sin st = bilinear (random sin (floor2 st)) (random sin ((floor2 st).add ⟨1, 0⟩))
        (random sin ((floor2 st).add ⟨0, 1⟩)) (random sin ((floor2 st).add ⟨1, 1⟩))
        (smoothWeight (fract st.x)) (smoothWeight (fract st.y))
      ∧ (∀ p : Vec2, 0 ≤ random sin p ∧ random sin p < 1)
      ∧ (0 ≤ smoothWeight (fract st.x) ∧ smoothWeight (fract st.x) ≤ 1)
      ∧ (0 ≤ smoothWeight (fract st.y) ∧ smoothWeight (fract st.y) ≤ 1)
      ∧ 0 ≤ noise sin st ∧ noise sin st ≤ 1 := by
  have hx0 := smoothWeight_nonneg (fract st.x) (fract_nonneg _) (fract_lt_one _).le
  have hx1 := smoothWeight_le_one (fract st.x) (fract_nonneg _) (fract_lt_one _).le
  have hy0 := smoothWeight_nonneg (fract st.y) (fract_nonneg _) (fract_lt_one _).le
  have hy1 := smoothWeight_le_one (fract st.y) (fract_nonneg _) (fract_lt_one _).le
  have he : noise sin st = bilinear (random sin (floor2 st))
      (random sin ((floor2 st).add ⟨1, 0⟩)) (random sin ((floor2 st).add ⟨0, 1⟩))
      (random sin ((floor2 st).add ⟨1, 1⟩))
      (smoothWeight (fract st.x)) (smoothWeight (fract st.y)) := by
    unfold noise
    rw [noiseCell_eq_bilinear]
    rfl
  refine ⟨he, fun p => ⟨random_nonneg sin p, random_lt_one sin p⟩, ⟨hx0, hx1⟩, ⟨hy0, hy1⟩,
    ?_, ?_⟩
  · rw [he]
    exact bilinear_nonneg _ _ _ _ _ _ (random_nonneg _ _) (random_nonneg _ _)
      (random_nonneg _ _) (random_nonneg _ _) hx0 hx1 hy0 hy1
  · rw [he]
    exact bilinear_le_one _ _ _ _ _ _ (random_lt_one _ _).le (random_lt_one _ _).le
      (random_lt_one _ _).le (random_lt_one _ _).le hx0 hx1 hy0 hy1

/-- C5: `noise` is continuous across integer cell boundaries. For every integer
cell `(i, j)` and offset `t` in [0,1], the cell formula of `(i, j)` at
`f.x = 1`, `f.y = t` is the value of `noise` at `(i+1, j+t)`, and at `f.x = t`,
`f.y = 1` it is the value of `noise` at `(i+t, j+1)`; approaching the boundary
from inside the cell, `noise` differs from its boundary value by at most three
times the distance to the boundary, so there is no jump. -/
theorem noise_continuous_across_cells (sin : ℚ → ℚ) (i j : ℤ) (t : ℚ)
    (ht0 : 0 ≤ t) (ht1 : t ≤ 1) :
    noiseCell sin ⟨i, j⟩ ⟨1, t⟩ = noise sin ⟨i + 1, j + t⟩
      ∧ noiseCell sin ⟨i, j⟩ ⟨t, 1⟩ = noise sin ⟨i + t, j + 1⟩
      ∧ (∀ fx : ℚ, 0 ≤ fx → fx < 1 →
          |noise sin ⟨i + fx, j + t⟩ - noise sin ⟨i + 1, j + t⟩| ≤ 3 * (1 - fx))
      ∧ (∀ fy : ℚ, 0 ≤ fy → fy < 1 →
          |noise sin ⟨i + t, j + fy⟩ - noise sin ⟨i + t, j + 1⟩| ≤ 3 * (1 - fy)) := by
  have hwt0 := smoothWeight_nonneg t ht0 ht1
  have hwt1 := smoothWeight_le_one t ht0 ht1
  have hone : smoothWeight 1 = 1 := by norm_num [smoothWeight]
  refine ⟨(noise_on_closed_cell sin i j 1 t zero_le_one le_rfl ht0 ht1).symm,
    (noise_on_closed_cell sin i j t 1 ht0 ht1 zero_le_one le_rfl).symm, ?_, ?_⟩
  · intro fx h0 h1
    rw [noise_on_closed_cell sin i j fx t h0 h1.le ht0 ht1,
      noise_on_closed_cell sin i j 1 t zero_le_one le_rfl ht0 ht1,
      noiseCell_eq_bilinear, noiseCell_eq_bilinear]
    simp only [hone]
    rw [bilinear_sub_edge]
    refine le_trans (bilinear_sub_edge_abs _ _ _ _ _ _ (random_nonneg _ _)
      (random_lt_one _ _).le (random_nonneg _ _) (random_lt_one _ _).le (random_nonneg _ _)
      (random_lt_one _ _).le (random_nonneg _ _) (random_lt_one _ _).le
      (smoothWeight_le_one fx h0 h1.le) hwt0 hwt1) ?_
    exact one_sub_smoothWeight_le fx h0 h1.le
  · intro fy h0 h1
    rw [noise_on_closed_cell sin i j t fy ht0 ht1 h0 h1.le,
      noise_on_closed_cell sin i j t 1 ht0 ht1 zero_le_one le_rfl,
      noiseCell_eq_bilinear, noiseCell_eq_bilinear]
    simp only [hone]
    rw [bilinear_swap _ _ _ _ (smoothWeight t) (smoothWeight fy),
      bilinear_swap _ _ _ _ (smoothWeight t) 1, bilinear_sub_edge]
    refine le_trans (bilinear_sub_edge_abs _ _ _ _ _ _ (random_nonneg _ _)
      (random_lt_one _ _).le (random_nonneg _ _) (random_lt_one _ _).le (random_nonneg _ _)
      (random_lt_one _ _).le (random_nonneg _ _) (random_lt_one _ _).le
      (smoothWeight_le_one fy h0 h1.le) hwt0 hwt1) ?_
    exact one_sub_smoothWeight_le fy h0 h1.le

/-- Witness of C5: cell `(2, 3)` at offset `t = 1/2`. -/
theorem noise_continuous_across_cells_witness :
    noiseCell sinTaylor ⟨2, 3⟩ ⟨1, 1 / 2⟩ = noise sinTaylor ⟨2 + 1, 3 + 1 / 2⟩ := by
  have h := (noise_continuous_across_cells sinTaylor 2 3 (1 / 2) (by norm_num) (by norm_num)).1
  simpa using h

end fragmentShader

/-! ## Helper lemmas: binary64 rounding and the remainder operator -/

theorem roundHalfEven_sub_le (y : ℚ) : |(roundHalfEven y : ℚ) - y| ≤ 1 / 2 := by
  have hfl : (⌊y⌋ : ℚ) ≤ y := Int.floor_le y
  have hlt : y < (⌊y⌋ : ℚ) + 1 := Int.lt_floor_add_one y
  unfold roundHalfEven
  rw [abs_le]
  split_ifs with h1 h2 h3
  · constructor <;> linarith
  · push_cast
    constructor <;> linarith
  · have : y - ⌊y⌋ = 1 / 2 := le_antisymm (not_lt.mp h2) (not_lt.mp h1)
    constructor <;> linarith
  · have : y - ⌊y⌋ = 1 / 2 := le_antisymm (not_lt.mp h2) (not_lt.mp h1)
    push_cast
    constructor <;> linarith

theorem roundHalfEven_intCast (n : ℤ) : roundHalfEven (n : ℚ) = n := by
  unfold roundHalfEven
  simp

theorem ulp_pos (x : ℚ) : 0 < ulp x := by
  unfold ulp
  positivity

theorem roundDouble_sub_le (x : ℚ) : |roundDouble x - x| ≤ ulp x / 2 := by
  have hu := ulp_pos x
  have h := roundHalfEven_sub_le (x / ulp x)
  have e : roundDouble x - x = ((roundHalfEven (x / ulp x) : ℚ) - x / ulp x) * ulp x := by
    unfold roundDouble
    field_simp
  rw [e, abs_mul, abs_of_pos hu]
  calc |(roundHalfEven (x / ulp x) : ℚ) - x / ulp x| * ulp x ≤ 1 / 2 * ulp x :=
        mul_le_mul_of_nonneg_right h hu.le
    _ = ulp x / 2 := by ring

theorem log_two_eq (x : ℚ) (e : ℤ) (hx : 0 < x) (h1 : (2 : ℚ) ^ e ≤ x)
    (h2 : x < (2 : ℚ) ^ (e + 1)) : Int.log 2 x = e := by
  have a : e ≤ Int.log 2 x := by
    rw [← Int.zpow_le_iff_le_log (by norm_num) hx]
    simpa using h1
  have b : Int.log 2 x < e + 1 := by
    rw [← Int.lt_zpow_iff_log_lt (by norm_num) hx]
    simpa using h2
  omega

/-- Between 1/2 and 1 the binary64 numbers are `2 ^ (-53)` apart. -/
theorem ulp_of_half_one (x : ℚ) (h1 : 1 / 2 ≤ x) (h2 : x < 1) :
    ulp x = 1 / 9007199254740992 := by
  have hx : 0 < x := by linarith
  have hl : Int.log 2 |x| = -1 := by
    rw [abs_of_pos hx]
    exact log_two_eq x (-1) hx (by norm_num; linarith) (by norm_num; linarith)
  unfold ulp
  rw [hl]
  norm_num

/-- Between 1 and 2 the binary64 numbers are `2 ^ (-52)` apart. -/
theorem ulp_of_one_two (x : ℚ) (h1 : 1 ≤ x) (h2 : x < 2) :
    ulp x = 1 / 4503599627370496 := by
  have hx : 0 < x := by linarith
  have hl : Int.log 2 |x| = 0 := by
    rw [abs_of_pos hx]
    exact log_two_eq x 0 hx (by norm_num; linarith) (by norm_num; linarith)
  unfold ulp
  rw [hl]
  norm_num

/-- Below 1 the binary64 numbers are at most `2 ^ (-53)` apart. -/
theorem ulp_le_of_lt_one (x : ℚ) (h0 : 0 < x) (h2 : x < 1) :
    ulp x ≤ 1 / 9007199254740992 := by
  have hl : Int.log 2 |x| < 0 := by
    rw [abs_of_pos h0, ← Int.lt_zpow_iff_log_lt (by norm_num) h0]
    simpa using h2
  have hm : max (Int.log 2 |x|) (-1022) - 52 ≤ -53 := by
    have : max (Int.log 2 |x|) (-1022) ≤ -1 := max_le (by omega) (by norm_num)
    omega
  have : (2 : ℚ) ^ (max (Int.log 2 |x|) (-1022) - 52) ≤ (2 : ℚ) ^ (-53 : ℤ) :=
    zpow_le_zpow_right₀ (by norm_num) hm
  unfold ulp
  calc (2 : ℚ) ^ (max (Int.log 2 |x|) (-1022) - 52) ≤ (2 : ℚ) ^ (-53 : ℤ) := this
    _ = 1 / 9007199254740992 := by norm_num

theorem lit001_eq : lit001 = 5764607523034235 / 576460752303423488 := by
  have hl : Int.log 2 |(1 / 100 : ℚ)| = -7 := by
    rw [abs_of_pos (by norm_num)]
    exact log_two_eq _ (-7) (by norm_num) (by norm_num) (by norm_num)
  have hu : ulp (1 / 100) = 1 / 576460752303423488 := by
    unfold ulp
    rw [hl]
    norm_num
  have hf : ⌊(1 / 100 : ℚ) / (1 / 576460752303423488)⌋ = 5764607523034234 := by
    rw [Int.floor_eq_iff]
    constructor <;> norm_num
  unfold lit001 roundDouble
  rw [hu]
  unfold roundHalfEven
  rw [hf]
  norm_num

theorem trunc_of_unit (q : ℚ) (h0 : 0 ≤ q) (h1 : q < 1) : trunc q = 0 := by
  unfold trunc
  rw [if_pos h0, Int.floor_eq_iff]
  constructor
  · simpa using h0
  · simpa using h1

theorem jsRem_one_of_unit (q : ℚ) (h0 : 0 ≤ q) (h1 : q < 1) : jsRem q 1 = q := by
  unfold jsRem
  rw [div_one, trunc_of_unit q h0 h1]
  simp

theorem jsRem_one_of_one : jsRem 1 1 = 0 := by
  have : trunc ((1 : ℚ) / 1) = 1 := by
    unfold trunc
    norm_num
  unfold jsRem
  rw [this]
  norm_num

theorem isDouble_of_half_one (x : ℚ) (n : ℤ) (h1 : 1 / 2 ≤ x) (h2 : x < 1)
    (hn : x = (n : ℚ) / 9007199254740992) : isDouble x := by
  have hq : x / (1 / 9007199254740992) = (n : ℚ) := by
    rw [hn]
    field_simp
  unfold isDouble roundDouble
  rw [ulp_of_half_one x h1 h2, hq, roundHalfEven_intCast, hn]
  ring

/-- A binary64 number in [1/2, 1) is an integer multiple of `2 ^ (-53)`. -/
theorem isDouble_grid (x : ℚ) (hd : isDouble x) (h1 : 1 / 2 ≤ x) (h2 : x < 1) :
    ∃ n : ℤ, x = (n : ℚ) / 9007199254740992 := by
  unfold isDouble roundDouble at hd
  rw [ulp_of_half_one x h1 h2] at hd
  rw [mul_one_div] at hd
  exact ⟨roundHalfEven (x / (1 / 9007199254740992)), hd.symm⟩

/-- The sum `p + 0.01` of line 125 stays below the rounding midpoint under 1 for
every binary64 `p` below the literal `0.99`. -/
theorem add_lit001_lt (p : ℚ) (hd : isDouble p) (h1 : p < lit099) :
    p + lit001 < 1 - 1 / 18014398509481984 := by
  rw [lit001_eq]
  rcases lt_or_le p (1 / 2) with hp | hp
  · linarith
  · have hlt : p < 1 := lt_trans h1 (by norm_num [lit099])
    obtain ⟨n, hn⟩ := isDouble_grid p hd hp hlt
    have hn1 : (n : ℚ) < 8917127262193582 := by
      have : (n : ℚ) / 9007199254740992 < 4458563631096791 / 4503599627370496 := by
        rw [← hn]; exact h1
      rw [div_lt_iff₀ (by norm_num)] at this
      linarith
    have hn2 : n ≤ 8917127262193581 := by
      have : n < 8917127262193582 := by exact_mod_cast hn1
      omega
    have hn3 : (n : ℚ) ≤ 8917127262193581 := by exact_mod_cast hn2
    rw [hn]
    have : (n : ℚ) / 9007199254740992 ≤ 8917127262193581 / 9007199254740992 := by
      apply div_le_div_of_nonneg_right hn3 (by norm_num)
    linarith

/-! ## Camera driver, pointer handler and displacement toggle -/

/-- C7, as stated, fails: at progress `p = 0.99` (the binary64 value of the
literal) the sum `p + 0.01` rounds to exactly 1, so `(p + 0.01) % 1` is 0; and
at `p = 127/128` the sum passes 1 and the remainder wraps to about 0.0022. In
both cases the look-ahead parameter is behind `p`, not ahead. -/
theorem lookAhead_wraps :
    isDouble lit099 ∧ 0 ≤ lit099 ∧ lit099 ≤ 1
      ∧ jsAdd lit099 lit001 = 1
      ∧ lookAhead lit099 = 0
      ∧ ¬ (lit099 < lookAhead lit099)
      ∧ isDouble (127 / 128)
      ∧ lookAhead (127 / 128) = 9851624184873 / 4503599627370496
      ∧ ¬ ((127 / 128 : ℚ) < lookAhead (127 / 128)) := by
  have hd : isDouble lit099 :=
    isDouble_of_half_one lit099 8917127262193582 (by norm_num [lit099]) (by norm_num [lit099])
      (by norm_num [lit099])
  have hd2 : isDouble (127 / 128) :=
    isDouble_of_half_one (127 / 128) 8936830510563328 (by norm_num) (by norm_num)
      (by norm_num)
  have hs : jsAdd lit099 lit001 = 1 := by
    have hx : lit099 + lit001 = 576460752303423483 / 576460752303423488 := by
      rw [lit001_eq]; norm_num [lit099]
    have hf : ⌊(576460752303423483 / 576460752303423488 : ℚ) / (1 / 9007199254740992)⌋
        = 9007199254740991 := by
      rw [Int.floor_eq_iff]
      constructor <;> norm_num
    unfold jsAdd roundDouble
    rw [hx, ulp_of_half_one _ (by norm_num) (by norm_num)]
    unfold roundHalfEven
    rw [hf]
    norm_num
  have hl : lookAhead lit099 = 0 := by
    unfold lookAhead
    rw [hs, jsRem_one_of_one]
  have hs2 : jsAdd (127 / 128) lit001 = 4513451251555369 / 4503599627370496 := by
    have hx : (127 / 128 : ℚ) + lit001 = 577721760199087227 / 576460752303423488 := by
      rw [lit001_eq]; norm_num
    have hf : ⌊(577721760199087227 / 576460752303423488 : ℚ) / (1 / 4503599627370496)⌋
        = 4513451251555368 := by
      rw [Int.floor_eq_iff]
      constructor <;> norm_num
    unfold jsAdd roundDouble
    rw [hx, ulp_of_one_two _ (by norm_num) (by norm_num)]
    unfold roundHalfEven
    rw [hf]
    norm_num
  have hl2 : lookAhead (127 / 128) = 9851624184873 / 4503599627370496 := by
    have ht : trunc ((4513451251555369 / 4503599627370496 : ℚ) / 1) = 1 := by
      unfold trunc
      rw [if_pos (by norm_num), Int.floor_eq_iff]
      constructor <;> norm_num
    unfold lookAhead jsRem
    rw [hs2, ht]
    norm_num
  refine ⟨hd, by norm_num [lit099], by norm_num [lit099], hs, hl, ?_, hd2, hl2, ?_⟩
  · rw [hl]; norm_num [lit099]
  · rw [hl2]; norm_num

/-- C7, amended: the look-at target `p2` is sampled at `(p + 0.01) % 1`; for
every binary64 progress value `p` with `0 <= p < 0.99` (the literal, so `p` is at
most the binary64 number just before it) that parameter is the rounded sum
`p + 0.01`, which is strictly greater than `p`, below 1, and within `2 ^ (-53)`
of `p + 1/100`. -/
theorem lookAhead_ahead (getPointAt : ℚ → Vec3) (m : Mouse) (camera : Camera) (p : ℚ)
    (hd : isDouble p) (h0 : 0 ≤ p) (h1 : p < lit099) :
    (onUpdate getPointAt p m camera).lookAt = getPointAt (lookAhead p)
      ∧ lookAhead p = jsAdd p lit001
      ∧ p < lookAhead p
      ∧ lookAhead p < 1
      ∧ |lookAhead p - (p + 1 / 100)| ≤ 1 / 9007199254740992 := by
  have hx1 := add_lit001_lt p hd h1
  have hc : lit001 = 5764607523034235 / 576460752303423488 := lit001_eq
  have hx0 : 0 < p + lit001 := by rw [hc]; linarith
  have hu := ulp_le_of_lt_one (p + lit001) hx0 (by linarith)
  have he := abs_le.mp (roundDouble_sub_le (p + lit001))
  have hlo : p < jsAdd p lit001 := by
    unfold jsAdd
    rw [hc] at he hu ⊢
    linarith [he.1]
  have hhi : jsAdd p lit001 < 1 := by
    unfold jsAdd
    linarith [he.2]
  have hl : lookAhead p = jsAdd p lit001 := by
    unfold lookAhead
    exact jsRem_one_of_unit _ (by linarith) hhi
  refine ⟨rfl, hl, by rw [hl]; exact hlo, by rw [hl]; exact hhi, ?_⟩
  rw [hl, abs_le]
  unfold jsAdd
  rw [hc] at he hu ⊢
  constructor <;> linarith [he.1, he.2]

/-- Witness of C7 (amended): progress `p = 1/2`. -/
theorem lookAhead_ahead_witness :
    isDouble (1 / 2) ∧ (1 / 2 : ℚ) < lit099 ∧ (1 / 2 : ℚ) < lookAhead (1 / 2) :=
  have hd : isDouble (1 / 2) :=
    isDouble_of_half_one (1 / 2) 4503599627370496 (by norm_num) (by norm_num) (by norm_num)
  have hlt : (1 / 2 : ℚ) < lit099 := by norm_num [lit099]
  ⟨hd, hlt, (lookAhead_ahead (fun _ => ⟨0, 0, 0⟩) mouse ⟨⟨0, 0, 0⟩, ⟨0, 0, 0⟩⟩ (1 / 2)
    hd (by norm_num) hlt).2.2.1⟩


/-- C8: in each tween update the camera position is set to
`(p1.x + 0.3 * mouse.x, p1.y + 0.3 * mouse.y, p1.z)` with `p1` the spline point
at the progress value; the shake changes X and Y only, Z is `p1.z`, and the
look-at target is exactly `p2`, the point sampled at the look-ahead parameter,
with no shake applied. -/
theorem onUpdate_camera (getPointAt : ℚ → Vec3) (p : ℚ) (m : Mouse) (camera : Camera) :
    (onUpdate getPointAt p m camera).position
        = ⟨(getPointAt p).x + 3 / 10 * m.x, (getPointAt p).y + 3 / 10 * m.y, (getPointAt p).z⟩
      ∧ (onUpdate getPointAt p m camera).position.z = (getPointAt p).z
      ∧ (onUpdate getPointAt p m camera).lookAt = getPointAt (lookAhead p) := by
  refine ⟨?_, rfl, rfl⟩
  simp only [onUpdate, Vec3.mk.injEq, and_true]
  constructor <;> ring

/-- C9: `toggleDisplacement(b)` sets `uEnableDisplacement` to `b`, leaves every
other uniform unchanged and logs that same `b`; after the startup call
`toggleDisplacement(false)` the flag is false although its declared default is
true. -/
theorem toggleDisplacement_effect (w : World) (b : Bool) (wire base : Vec3) :
    (toggleDisplacement b w).uniforms.uEnableDisplacement = b
      ∧ (toggleDisplacement b w).uniforms.uSmoothness = w.uniforms.uSmoothness
      ∧ (toggleDisplacement b w).uniforms.uGridDensity = w.uniforms.uGridDensity
      ∧ (toggleDisplacement b w).uniforms.uNoiseScale = w.uniforms.uNoiseScale
      ∧ (toggleDisplacement b w).uniforms.uNoiseSpeed = w.uniforms.uNoiseSpeed
      ∧ (toggleDisplacement b w).uniforms.uNoiseStrength = w.uniforms.uNoiseStrength
      ∧ (toggleDisplacement b w).uniforms.uTime = w.uniforms.uTime
      ∧ (toggleDisplacement b w).uniforms.uWireColor = w.uniforms.uWireColor
      ∧ (toggleDisplacement b w).uniforms.uBaseColor = w.uniforms.uBaseColor
      ∧ (toggleDisplacement b w).console = w.console ++ [("Displacement Enabled:", b)]
      ∧ (uniforms wire base).uEnableDisplacement = true
      ∧ (startup wire base).uniforms.uEnableDisplacement = false
      ∧ (startup wire base).console = [("Displacement Enabled:", false)] :=
  ⟨rfl, rfl, rfl, rfl, rfl, rfl, rfl, rfl, rfl, rfl, rfl, rfl, rfl⟩

/-- C10: for a `mousemove` event with `0 <= clientX <= innerWidth` and
`0 <= clientY <= innerHeight` in a window of positive size, the handler stores
`mouse.x = 2 * clientX / innerWidth - 1` and
`mouse.y = 1 - 2 * clientY / innerHeight`, both in [-1, 1]; the left edge gives
-1, the right edge +1, the top edge +1 and the bottom edge -1, and the initial
pointer state is in the square as well. -/
theorem onMouseMove_range (clientX clientY innerWidth innerHeight : ℚ)
    (hw : 0 < innerWidth) (hh : 0 < innerHeight)
    (hx0 : 0 ≤ clientX) (hx1 : clientX ≤ innerWidth)
    (hy0 : 0 ≤ clientY) (hy1 : clientY ≤ innerHeight) :
    (onMouseMove clientX clientY innerWidth innerHeight).x = 2 * clientX / innerWidth - 1
      ∧ (onMouseMove clientX clientY innerWidth innerHeight).y
          = 1 - 2 * clientY / innerHeight
      ∧ -1 ≤ (onMouseMove clientX clientY innerWidth innerHeight).x
      ∧ (onMouseMove clientX clientY innerWidth innerHeight).x ≤ 1
      ∧ -1 ≤ (onMouseMove clientX clientY innerWidth innerHeight).y
      ∧ (onMouseMove clientX clientY innerWidth innerHeight).y ≤ 1
      ∧ (onMouseMove 0 clientY innerWidth innerHeight).x = -1
      ∧ (onMouseMove innerWidth clientY innerWidth innerHeight).x = 1
      ∧ (onMouseMove clientX 0 innerWidth innerHeight).y = 1
      ∧ (onMouseMove clientX innerHeight innerWidth innerHeight).y = -1
      ∧ (-1 ≤ mouse.x ∧ mouse.x ≤ 1 ∧ -1 ≤ mouse.y ∧ mouse.y ≤ 1) := by
  have hx : 0 ≤ clientX / innerWidth := div_nonneg hx0 hw.le
  have hx' : clientX / innerWidth ≤ 1 := (div_le_one hw).mpr hx1
  have hy : 0 ≤ clientY / innerHeight := div_nonneg hy0 hh.le
  have hy' : clientY / innerHeight ≤ 1 := (div_le_one hh).mpr hy1
  have hwne : innerWidth ≠ 0 := hw.ne.symm
  have hhne : innerHeight ≠ 0 := hh.ne.symm
  simp only [onMouseMove, mouse]
  refine ⟨by ring, by ring, by linarith, by linarith, by linarith, by linarith, by simp,
    ?_, by simp, ?_, by norm_num⟩
  · rw [div_self hwne]; norm_num
  · rw [div_self hhne]; norm_num

/-- Witness of C10: the pointer at `(480, 270)` in a 1920 by 1080 window. -/
theorem onMouseMove_range_witness :
    (onMouseMove 480 270 1920 1080).x = 2 * 480 / 1920 - 1
      ∧ -1 ≤ (onMouseMove 480 270 1920 1080).x ∧ (onMouseMove 480 270 1920 1080).x ≤ 1 :=
  have h := onMouseMove_range 480 270 1920 1080 (by norm_num) (by norm_num) (by norm_num)
    (by norm_num) (by norm_num) (by norm_num)
  ⟨h.1, h.2.2.1, h.2.2.2.1⟩

end Infinity
